import Mathlib

/-
Shallow embedding of the semantic retrieval store implemented in
backend/vector_utils.py, together with proofs of the specified properties.

Modelling conventions:
* Python strings are lists of characters (Str); Python len is List.length.
* Vector components live in an arbitrary linearly ordered commutative ring R
  (instantiated with the integers in concrete computations); the faiss
  IndexFlatL2 index is the list of its vectors in insertion order, and its
  search is modelled from the documented contract of the flat exact index:
  squared L2 distances, ascending, ties broken by lower id, at most
  min(k, size) rows.
* The sentence transformer is an arbitrary deterministic function
  encode : Str -> List R applied elementwise to a batch.
* The Python dict document_metadata is an association list in insertion
  order; datetime.now() is passed in as a numeric timestamp.
* Fallible disk artifacts are Option (Except String alpha): missing file,
  unreadable file, or parsed value.
* Exception control flow is made explicit: the one reachable in-memory
  exception path (integer modulo by zero on page_count = 0 inside the
  chunk-record loop of add_document, raised after index.add already ran)
  is modelled by the corresponding early return, and the numpy fancy-index
  failure on an out-of-range embedding_id in delete_document is modelled by
  the guarded early return.
-/

/-- Python strings, seen as lists of characters. -/
abbrev Str := List Char

/-- Whitespace characters stripped by the Python str.strip default. -/
def isPySpace (c : Char) : Bool :=
  c == ' ' || c == '\t' || c == '\n' || c == '\r' || c == '\x0b' || c == '\x0c'

/-- Python str.strip with no arguments. -/
def pyStrip (s : Str) : Str :=
  ((s.dropWhile isPySpace).reverse.dropWhile isPySpace).reverse

/-- Python str.split with the one-character separator given by a newline. -/
def pySplitNl : Str → List Str
  | [] => [[]]
  | '\n' :: rest => [] :: pySplitNl rest
  | c :: rest =>
    match pySplitNl rest with
    | [] => [[c]]
    | g :: gs => (c :: g) :: gs

/-- Python str.split with the two-character separator dot-blank, scanning
left to right over non-overlapping occurrences. -/
def pySplitDot : Str → List Str
  | [] => [[]]
  | [c] => [[c]]
  | c :: c2 :: rest =>
    if c = '.' ∧ c2 = ' ' then [] :: pySplitDot rest
    else
      match pySplitDot (c2 :: rest) with
      | [] => [[c]]
      | g :: gs => (c :: g) :: gs

/-- One chunk record, a Python dict built in add_document
(vector_utils.py lines 96-103). -/
structure Chunk where
  doc_id : String
  doc_name : String
  text : Str
  page : Nat
  chunk_id : Nat
  embedding_id : Nat
deriving DecidableEq

/-- The per-document metadata dict built in add_document
(vector_utils.py lines 105-110). -/
structure DocMeta where
  name : String
  upload_time : Nat
  page_count : Nat
  chunk_count : Nat
deriving DecidableEq

/-- The three interdependent structures of the store: the flat vector index,
the chunk records, and the document registry (vector_utils.py lines 23-25). -/
structure VectorStore (R : Type) where
  index : List (List R)
  chunks : List Chunk
  document_metadata : List (String × DocMeta)
deriving DecidableEq

/-- Lookup in the insertion-ordered model of a Python dict. -/
def dictLookup (m : List (String × DocMeta)) (k : String) : Option DocMeta :=
  (m.find? (fun p => decide (p.1 = k))).map Prod.snd

/-- Python dict assignment: overwrite in place when the key is present,
append otherwise. -/
def dictInsert (m : List (String × DocMeta)) (k : String) (v : DocMeta) :
    List (String × DocMeta) :=
  if m.any (fun p => decide (p.1 = k)) then
    m.map (fun p => if p.1 = k then (k, v) else p)
  else m ++ [(k, v)]

/-- Python del on a dict key. -/
def dictErase (m : List (String × DocMeta)) (k : String) : List (String × DocMeta) :=
  m.filter (fun p => decide (¬ p.1 = k))

/-- One result row of VectorStore.search: the chunk dict spread together with
the score and distance fields (vector_utils.py lines 134-138). -/
structure SearchResult (R : Type) where
  chunk : Chunk
  score : R
  distance : R
deriving DecidableEq

namespace VectorStore

/-- The sentence accumulation loop of _split_text for one long paragraph
(vector_utils.py lines 66-75): flush the buffer when appending the next
sentence would exceed 500 characters, appending flushed buffers that meet
the minimum length, and flush the leftover buffer at the end. -/
def sentenceLoop (min_length : Nat) : List Str → Str → List Str → List Str
  | [], cur, acc =>
    if cur ≠ [] ∧ min_length ≤ cur.length then acc ++ [cur] else acc
  | sent :: rest, cur, acc =>
    if 500 < cur.length + sent.length then
      if min_length ≤ cur.length then sentenceLoop min_length rest sent (acc ++ [cur])
      else sentenceLoop min_length rest sent acc
    else
      sentenceLoop min_length rest (if cur.isEmpty then sent else cur ++ '.' :: ' ' :: sent) acc

/-- VectorStore._split_text (vector_utils.py lines 60-78): split on newlines,
strip, drop lines under min_length, pass paragraphs over 500 characters
through the sentence accumulation loop and emit the others whole. -/
def _split_text (text : Str) (min_length : Nat) : List Str :=
  (((pySplitNl text).map pyStrip).filter (fun p => decide (min_length ≤ p.length))).foldl
    (fun acc para =>
      if 500 < para.length then sentenceLoop min_length (pySplitDot para) [] acc
      else acc ++ [para])
    []

/-- The chunk records appended by one add_document call
(vector_utils.py lines 95-103): new_total stands for index.ntotal after the
index.add call, so the embedding id of the i-th record is
new_total - len(paragraphs) + i, the chunk id is the running length of the
chunk list, and the page is (i mod page_count) + 1. -/
def mkChunks (doc_id doc_name : String) (page_count old_len new_total : Nat)
    (paras : List Str) : List Chunk :=
  paras.enum.map (fun p =>
    { doc_id := doc_id
      doc_name := doc_name
      text := p.2
      page := p.1 % page_count + 1
      chunk_id := old_len + p.1
      embedding_id := new_total - paras.length + p.1 })

variable {R : Type} [LinearOrderedCommRing R]

/-- The freshly initialized empty triple (vector_utils.py lines 23-25). -/
def emptyStore : VectorStore R := ⟨[], [], []⟩

/-- VectorStore.add_document (vector_utils.py lines 80-117). An empty split
returns False before any mutation. When page_count is zero, the expression
(i mod page_count) raises ZeroDivisionError while building the first chunk
record; the except handler then returns False, but the vectors were already
added to the index, so only the index component has grown. Otherwise the
vectors are appended, the chunk records are appended, and the registry entry
is overwritten wholesale. -/
def add_document (encode : Str → List R) (s : VectorStore R) (text : Str)
    (doc_id doc_name : String) (page_count now : Nat) : VectorStore R × Bool :=
  if (_split_text text 20).isEmpty then (s, false)
  else if page_count = 0 then
    ({ s with index := s.index ++ (_split_text text 20).map encode }, false)
  else
    (⟨s.index ++ (_split_text text 20).map encode,
      s.chunks ++ mkChunks doc_id doc_name page_count s.chunks.length
        (s.index ++ (_split_text text 20).map encode).length (_split_text text 20),
      dictInsert s.document_metadata doc_id
        ⟨doc_name, now, page_count, (_split_text text 20).length⟩⟩, true)

/-- The vectors of the flat index in id order; models
index.reconstruct_n(0, index.ntotal) and the reconstruct_all operation of
the specification. -/
def reconstruct_all (s : VectorStore R) : List (List R) := s.index

/-- Squared L2 distance, the metric reported by the flat L2 index. -/
def sqdist (u v : List R) : R :=
  ((u.zip v).map (fun p => (p.1 - p.2) * (p.1 - p.2))).sum

/-- Comparison used by the flat index: ascending distance, ties broken by the
lower id. -/
def rankLe (x y : Nat × R) : Prop :=
  x.2 < y.2 ∨ (x.2 = y.2 ∧ x.1 ≤ y.1)

instance : DecidableRel (rankLe (R := R)) := fun x y =>
  inferInstanceAs (Decidable (x.2 < y.2 ∨ (x.2 = y.2 ∧ x.1 ≤ y.1)))

instance : IsTotal (Nat × R) rankLe where
  total x y := by
    rcases lt_trichotomy x.2 y.2 with h | h | h
    · exact Or.inl (Or.inl h)
    · rcases Nat.le_total x.1 y.1 with h2 | h2
      · exact Or.inl (Or.inr ⟨h, h2⟩)
      · exact Or.inr (Or.inr ⟨h.symm, h2⟩)
    · exact Or.inr (Or.inl h)

instance : IsTrans (Nat × R) rankLe where
  trans x y z h1 h2 := by
    rcases h1 with h1 | ⟨h1, h1b⟩ <;> rcases h2 with h2 | ⟨h2, h2b⟩
    · exact Or.inl (h1.trans h2)
    · exact Or.inl (h2 ▸ h1)
    · exact Or.inl (h1 ▸ h2)
    · exact Or.inr ⟨h1.trans h2, h1b.trans h2b⟩

/-- Modelled from the contract of the external faiss IndexFlatL2.search used
at vector_utils.py line 126, which is not part of this repository: exact
nearest neighbours of the query over squared L2 distance, ascending, ties
broken by the lower id, and at most min(k, size) rows. -/
def knn (index : List (List R)) (qv : List R) (k : Nat) : List (Nat × R) :=
  (List.insertionSort rankLe (index.enum.map (fun p => (p.1, sqdist qv p.2)))).take k

/-- VectorStore.search (vector_utils.py lines 119-142): empty index returns
the empty list; otherwise the nearest-neighbour rows are mapped through the
chunk list, rows whose id falls outside the chunk list are skipped, rows
excluded by a non-empty doc_filter are skipped, and each surviving row is
the chunk together with score 1 - distance and the distance. -/
def search (encode : Str → List R) (s : VectorStore R) (query : Str)
    (top_k : Nat) (doc_filter : List String) : List (SearchResult R) :=
  if s.index.length = 0 then []
  else
    (knn s.index (encode query) top_k).filterMap (fun p =>
      match s.chunks[p.1]? with
      | none => none
      | some chunk =>
        if doc_filter ≠ [] ∧ chunk.doc_id ∉ doc_filter then none
        else some ⟨chunk, 1 - p.2, p.2⟩)

/-- VectorStore.get_document_chunks (vector_utils.py lines 144-145). -/
def get_document_chunks (s : VectorStore R) (doc_id : String) : List Chunk :=
  s.chunks.filter (fun c => decide (c.doc_id = doc_id))

/-- The embedding ids of the chunks of one document, used as the deletion
mask (vector_utils.py line 156). -/
def delIdsOf (s : VectorStore R) (d : String) : List Nat :=
  (s.chunks.filter (fun c => decide (c.doc_id = d))).map (fun c => c.embedding_id)

/-- The rebuilt index after deleting one document: the reconstructed vectors
whose position is outside the deletion mask, in the original relative order
(vector_utils.py lines 154-158). -/
def compactIndex (s : VectorStore R) (d : String) : List (List R) :=
  ((reconstruct_all s).enum.filter (fun p => decide (p.1 ∉ delIdsOf s d))).map Prod.snd

/-- The surviving chunk records after deleting one document, with every
embedding id renumbered to its new position (vector_utils.py lines 160-163). -/
def keptChunks (s : VectorStore R) (d : String) : List Chunk :=
  ((s.chunks.filter (fun c => decide (¬ c.doc_id = d))).enum).map
    (fun p => { p.2 with embedding_id := p.1 })

/-- VectorStore.delete_document (vector_utils.py lines 147-168): False when
the id is not registered or owns no chunk records; the guarded branch models
the numpy IndexError raised by the mask assignment when some embedding id is
out of range, which the handler turns into False with the store untouched;
otherwise the index is rebuilt through the keep mask, the chunk records are
filtered and renumbered, and the registry entry is removed. -/
def delete_document (s : VectorStore R) (doc_id : String) : VectorStore R × Bool :=
  if dictLookup s.document_metadata doc_id = none then (s, false)
  else if ((s.chunks.enum.filter (fun p => decide (p.2.doc_id = doc_id))).map Prod.fst).isEmpty
    then (s, false)
  else if (delIdsOf s doc_id).any (fun i => decide (s.index.length ≤ i)) then (s, false)
  else
    (⟨compactIndex s doc_id, keptChunks s doc_id, dictErase s.document_metadata doc_id⟩, true)

/-- Read one persisted artifact: a missing file leaves the freshly
initialized default, a present file yields its parse outcome. -/
def readArtifact {α : Type} (dflt : α) : Option (Except String α) → Except String α
  | none => Except.ok dflt
  | some r => r

/-- VectorStore._load_from_disk (vector_utils.py lines 29-46): each present
artifact is read in order and any raised parse failure resets all three
structures to the freshly initialized empty triple. The function is total,
so no failure escapes startup. -/
def _load_from_disk (index_file : Option (Except String (List (List R))))
    (chunk_file : Option (Except String (List Chunk)))
    (metadata_file : Option (Except String (List (String × DocMeta)))) : VectorStore R :=
  match (do
    let i ← readArtifact [] index_file
    let c ← readArtifact [] chunk_file
    let m ← readArtifact [] metadata_file
    pure (VectorStore.mk i c m) : Except String (VectorStore R)) with
  | Except.ok s => s
  | Except.error _ => emptyStore

/-- VectorStore._save_to_disk (vector_utils.py lines 48-58): serializes the
three structures as one unit; the artifacts it writes parse back to the
values that were saved. -/
def _save_to_disk (s : VectorStore R) :
    Option (Except String (List (List R))) × Option (Except String (List Chunk)) ×
      Option (Except String (List (String × DocMeta))) :=
  (some (Except.ok s.index), some (Except.ok s.chunks), some (Except.ok s.document_metadata))

/-- The dense id invariant of the store: the index holds exactly the encoded
chunk texts in chunk order, and the embedding ids are exactly the positions
0, 1, 2, and so on. -/
def Inv (encode : Str → List R) (s : VectorStore R) : Prop :=
  s.index = s.chunks.map (fun c => encode c.text) ∧
  s.chunks.map (fun c => c.embedding_id) = List.range s.chunks.length

instance (encode : Str → List R) (s : VectorStore R) : Decidable (Inv encode s) :=
  inferInstanceAs (Decidable (_ ∧ _))

/-- The stores reachable from the empty store by ingest and delete
operations whose ingests pass a positive page count, as every caller in
this repository does. -/
inductive Reachable (encode : Str → List R) : VectorStore R → Prop where
  | empty : Reachable encode emptyStore
  | ingest (s : VectorStore R) (text : Str) (doc_id doc_name : String)
      (page_count now : Nat) : Reachable encode s → 0 < page_count →
      Reachable encode (add_document encode s text doc_id doc_name page_count now).1
  | delete (s : VectorStore R) (doc_id : String) : Reachable encode s →
      Reachable encode (delete_document s doc_id).1

end VectorStore

/-- A concrete deterministic stand-in for the sentence transformer, used in
concrete computations. -/
def encC : Str → List ℤ := fun t =>
  if t = "aaaaaaaaaaaaaaaaaaaa".data then [10]
  else if t = "bbbbbbbbbbbbbbbbbbbb".data then [11]
  else if t = "cccccccccccccccccccc".data then [0]
  else if t = "dddddddddddddddddddd".data then [1]
  else if t = "q".data then [0]
  else [5]

/-- A two-line document body for document A. -/
def textA : Str := "aaaaaaaaaaaaaaaaaaaa\nbbbbbbbbbbbbbbbbbbbb".data

/-- A two-line document body for document B. -/
def textB : Str := "cccccccccccccccccccc\ndddddddddddddddddddd".data

/-- A concrete query string. -/
def q10 : Str := "q".data

/-- A concrete store holding two documents of two chunks each, built by two
ingests from the empty store. -/
def s10 : VectorStore ℤ :=
  (VectorStore.add_document encC
    ((VectorStore.add_document encC (VectorStore.emptyStore) textA "A" "A" 1 0).1)
    textB "B" "B" 1 0).1

/-! ### Chunker lemmas -/

theorem sentenceLoop_min (min_length : Nat) :
    ∀ (sents : List Str) (cur : Str) (acc : List Str),
      (∀ c ∈ acc, min_length ≤ c.length) →
      ∀ c ∈ VectorStore.sentenceLoop min_length sents cur acc, min_length ≤ c.length := by
  intro sents
  induction sents with
  | nil =>
    intro cur acc hacc c hc
    simp only [VectorStore.sentenceLoop] at hc
    split at hc
    · rename_i hcond
      rcases List.mem_append.mp hc with h | h
      · exact hacc c h
      · rcases List.mem_singleton.mp h with rfl
        exact hcond.2
    · exact hacc c hc
  | cons s rest ih =>
    intro cur acc hacc c hc
    simp only [VectorStore.sentenceLoop] at hc
    split at hc
    · split at hc
      · rename_i h1 h2
        refine ih s (acc ++ [cur]) ?_ c hc
        intro x hx
        rcases List.mem_append.mp hx with h | h
        · exact hacc x h
        · rcases List.mem_singleton.mp h with rfl
          exact h2
      · exact ih s acc hacc c hc
    · exact ih _ acc hacc c hc

theorem splitFold_min (min_length : Nat) :
    ∀ (ps : List Str) (acc : List Str),
      (∀ c ∈ acc, min_length ≤ c.length) → (∀ p ∈ ps, min_length ≤ p.length) →
      ∀ c ∈ ps.foldl (fun acc para =>
          if 500 < para.length then VectorStore.sentenceLoop min_length (pySplitDot para) [] acc
          else acc ++ [para]) acc,
        min_length ≤ c.length := by
  intro ps
  induction ps with
  | nil => intro acc hacc _ c hc; exact hacc c hc
  | cons p ps ih =>
    intro acc hacc hps c hc
    simp only [List.foldl_cons] at hc
    by_cases h5 : 500 < p.length
    · rw [if_pos h5] at hc
      exact ih _ (sentenceLoop_min min_length _ [] acc hacc)
        (fun x hx => hps x (List.mem_cons_of_mem _ hx)) c hc
    · rw [if_neg h5] at hc
      refine ih _ ?_ (fun x hx => hps x (List.mem_cons_of_mem _ hx)) c hc
      intro x hx
      rcases List.mem_append.mp hx with h | h
      · exact hacc x h
      · rcases List.mem_singleton.mp h with rfl
        exact hps x (List.mem_cons_self _ _)

/-- Claim C5: every chunk emitted by the chunker has length at least
min_length; this holds with no exception at all, because every append in
the sentence loop is guarded by the minimum-length test and surviving
paragraphs already meet it, which implies the claimed statement with its
oversized-sentence allowance. -/
theorem chunking_min_length (text : Str) (min_length : Nat) :
    ∀ c ∈ VectorStore._split_text text min_length, min_length ≤ c.length := by
  intro c hc
  unfold VectorStore._split_text at hc
  refine splitFold_min min_length _ [] (by simp) ?_ c hc
  intro p hp
  simpa using (List.mem_filter.mp hp).2

/-- Witness for C5 at a concrete text of one twenty-character line. -/
theorem chunking_min_length_witness :
    "aaaaaaaaaaaaaaaaaaaa".data ∈ VectorStore._split_text "aaaaaaaaaaaaaaaaaaaa".data 20 ∧
    20 ≤ ("aaaaaaaaaaaaaaaaaaaa".data).length :=
  ⟨by decide, chunking_min_length "aaaaaaaaaaaaaaaaaaaa".data 20 _ (by decide)⟩

theorem sentenceLoop_mono (min_length : Nat) :
    ∀ (sents : List Str) (cur : Str) (acc : List Str) (c : Str), c ∈ acc →
      c ∈ VectorStore.sentenceLoop min_length sents cur acc := by
  intro sents
  induction sents with
  | nil =>
    intro cur acc c hc
    simp only [VectorStore.sentenceLoop]
    split
    · exact List.mem_append.mpr (Or.inl hc)
    · exact hc
  | cons s rest ih =>
    intro cur acc c hc
    simp only [VectorStore.sentenceLoop]
    split
    · split
      · exact ih s _ c (List.mem_append.mpr (Or.inl hc))
      · exact ih s _ c hc
    · exact ih _ _ c hc

theorem sentenceLoop_keeps_cur (min_length : Nat) (hmin : min_length ≤ 500) :
    ∀ (sents : List Str) (cur : Str) (acc : List Str), 500 < cur.length →
      cur ∈ VectorStore.sentenceLoop min_length sents cur acc := by
  intro sents
  induction sents with
  | nil =>
    intro cur acc hcur
    have hne : cur ≠ [] := by
      intro h
      rw [h] at hcur
      simp at hcur
    have hlen : min_length ≤ cur.length := le_trans hmin (le_of_lt hcur)
    simp only [VectorStore.sentenceLoop]
    rw [if_pos ⟨hne, hlen⟩]
    exact List.mem_append.mpr (Or.inr (List.mem_singleton.mpr rfl))
  | cons s rest ih =>
    intro cur acc hcur
    simp only [VectorStore.sentenceLoop]
    have hgt : 500 < cur.length + s.length := lt_of_lt_of_le hcur (Nat.le_add_right _ _)
    rw [if_pos hgt, if_pos (le_trans hmin (le_of_lt hcur))]
    exact sentenceLoop_mono min_length rest s _ cur
      (List.mem_append.mpr (Or.inr (List.mem_singleton.mpr rfl)))

theorem sentenceLoop_oversized (min_length : Nat) (hmin : min_length ≤ 500) :
    ∀ (sents : List Str) (cur : Str) (acc : List Str) (sent : Str),
      sent ∈ sents → 500 < sent.length →
      sent ∈ VectorStore.sentenceLoop min_length sents cur acc := by
  intro sents
  induction sents with
  | nil =>
    intro cur acc sent h
    exact absurd h (List.not_mem_nil sent)
  | cons s rest ih =>
    intro cur acc sent hmem hlen
    rcases List.mem_cons.mp hmem with rfl | hmem
    · simp only [VectorStore.sentenceLoop]
      have hgt : 500 < cur.length + sent.length := lt_of_lt_of_le hlen (Nat.le_add_left _ _)
      rw [if_pos hgt]
      split
      · exact sentenceLoop_keeps_cur min_length hmin rest sent _ hlen
      · exact sentenceLoop_keeps_cur min_length hmin rest sent _ hlen
    · simp only [VectorStore.sentenceLoop]
      split
      · split
        · exact ih s _ sent hmem hlen
        · exact ih s _ sent hmem hlen
      · exact ih _ _ sent hmem hlen

theorem splitFold_mono (min_length : Nat) :
    ∀ (ps : List Str) (acc : List Str) (c : Str), c ∈ acc →
      c ∈ ps.foldl (fun acc para =>
          if 500 < para.length then VectorStore.sentenceLoop min_length (pySplitDot para) [] acc
          else acc ++ [para]) acc := by
  intro ps
  induction ps with
  | nil => intro acc c hc; exact hc
  | cons p rest ih =>
    intro acc c hc
    simp only [List.foldl_cons]
    by_cases h5 : 500 < p.length
    · rw [if_pos h5]
      exact ih _ c (sentenceLoop_mono min_length _ [] acc c hc)
    · rw [if_neg h5]
      exact ih _ c (List.mem_append.mpr (Or.inl hc))

theorem pySplitDot_length : ∀ (s : Str), ∀ g ∈ pySplitDot s, g.length ≤ s.length := by
  intro s
  induction s using pySplitDot.induct with
  | case1 =>
    intro g hg
    simp only [pySplitDot, List.mem_singleton] at hg
    simp [hg]
  | case2 c =>
    intro g hg
    simp only [pySplitDot, List.mem_singleton] at hg
    simp [hg]
  | case3 c c2 rest h ih =>
    intro g hg
    simp only [pySplitDot, if_pos h, List.mem_cons] at hg
    rcases hg with rfl | hg
    · simp
    · have := ih g hg
      simp only [List.length_cons]
      omega
  | case4 c c2 rest hn h2 ih =>
    intro g hg
    simp only [pySplitDot, if_neg hn, h2, List.mem_singleton] at hg
    simp [hg]
  | case5 c c2 rest hn g0 gs h2 ih =>
    intro g hg
    simp only [pySplitDot, if_neg hn, h2, List.mem_cons] at hg
    rcases hg with rfl | hg
    · have := ih g0 (h2 ▸ List.mem_cons_self g0 gs)
      simp only [List.length_cons] at this ⊢
      omega
    · have := ih g (h2 ▸ List.mem_cons_of_mem g0 hg)
      simp only [List.length_cons] at this ⊢
      omega

theorem oversized_sentence_in_fold (min_length : Nat) (hmin : min_length ≤ 500)
    (sent : Str) (hlong : 500 < sent.length) :
    ∀ (ps : List Str) (acc : List Str) (para : Str), para ∈ ps → sent ∈ pySplitDot para →
      sent ∈ ps.foldl (fun acc para =>
        if 500 < para.length then VectorStore.sentenceLoop min_length (pySplitDot para) [] acc
        else acc ++ [para]) acc := by
  intro ps
  induction ps with
  | nil =>
    intro acc para h
    exact absurd h (List.not_mem_nil para)
  | cons p rest ih =>
    intro acc para hmem hsent
    simp only [List.foldl_cons]
    rcases List.mem_cons.mp hmem with rfl | hmem
    · have hp : 500 < para.length := lt_of_lt_of_le hlong (pySplitDot_length para sent hsent)
      rw [if_pos hp]
      exact splitFold_mono min_length rest _ sent
        (sentenceLoop_oversized min_length hmin _ [] _ sent hsent hlong)
    · exact ih _ para hmem hsent

/-- Claim C6: a sentence of a surviving paragraph that is longer than the
500-character cap is emitted whole as one chunk of the output, neither
truncated nor dropped, whenever the minimum length does not exceed the cap. -/
theorem oversized_sentence_preserved (text : Str) (min_length : Nat) (para sent : Str)
    (hmin : min_length ≤ 500)
    (hpara : para ∈ ((pySplitNl text).map pyStrip).filter (fun p => decide (min_length ≤ p.length)))
    (hsent : sent ∈ pySplitDot para) (hlong : 500 < sent.length) :
    sent ∈ VectorStore._split_text text min_length := by
  unfold VectorStore._split_text
  exact oversized_sentence_in_fold min_length hmin sent hlong _ [] para hpara hsent

set_option maxRecDepth 100000 in
/-- Witness for C6 at a concrete text that is one 501-character sentence. -/
theorem oversized_sentence_preserved_witness :
    (500 < (List.replicate 501 'a').length ∧
      List.replicate 501 'a' ∈ pySplitDot (List.replicate 501 'a')) ∧
    List.replicate 501 'a' ∈ VectorStore._split_text (List.replicate 501 'a') 20 :=
  ⟨⟨by decide, by decide⟩,
    oversized_sentence_preserved (List.replicate 501 'a') 20 (List.replicate 501 'a')
      (List.replicate 501 'a') (by decide) (by decide) (by decide) (by decide)⟩

/-! ### Persistence -/

/-- Claim C7: whenever some present artifact fails to parse, or the whole
artifact set is missing, the loader yields the freshly initialized empty
triple; being a total function it never aborts startup. -/
theorem load_degrades {R : Type} [LinearOrderedCommRing R]
    (index_file : Option (Except String (List (List R))))
    (chunk_file : Option (Except String (List Chunk)))
    (metadata_file : Option (Except String (List (String × DocMeta))))
    (h : (∃ e, index_file = some (Except.error e)) ∨
      (∃ e, chunk_file = some (Except.error e)) ∨
      (∃ e, metadata_file = some (Except.error e)) ∨
      (index_file = none ∧ chunk_file = none ∧ metadata_file = none)) :
    VectorStore._load_from_disk index_file chunk_file metadata_file
      = (VectorStore.emptyStore : VectorStore R) := by
  rcases h with ⟨e, rfl⟩ | ⟨e, rfl⟩ | ⟨e, rfl⟩ | ⟨h1, h2, h3⟩
  · rfl
  · rcases index_file with _ | r1
    · rfl
    · rcases r1 with e1 | v1 <;> rfl
  · rcases index_file with _ | r1
    · rcases chunk_file with _ | r2
      · rfl
      · rcases r2 with e2 | v2 <;> rfl
    · rcases r1 with e1 | v1
      · rfl
      · rcases chunk_file with _ | r2
        · rfl
        · rcases r2 with e2 | v2 <;> rfl
  · rw [h1, h2, h3]
    rfl

/-- Witness for C7: a store whose index artifact is unreadable loads as the
empty store. -/
theorem load_degrades_witness :
    VectorStore._load_from_disk (some (Except.error "corrupt")) none none
      = (VectorStore.emptyStore : VectorStore ℤ) :=
  load_degrades (some (Except.error "corrupt")) none none (Or.inl ⟨"corrupt", rfl⟩)

/-- Claim C8: saving the triple and loading it back reproduces an index of
equal size with equal vectors, an equal chunk list, and an equal registry. -/
theorem save_load_round_trip {R : Type} [LinearOrderedCommRing R] (s : VectorStore R) :
    (VectorStore._load_from_disk (VectorStore._save_to_disk s).1
        (VectorStore._save_to_disk s).2.1 (VectorStore._save_to_disk s).2.2).index.length
      = s.index.length ∧
    (VectorStore._load_from_disk (VectorStore._save_to_disk s).1
        (VectorStore._save_to_disk s).2.1 (VectorStore._save_to_disk s).2.2).index
      = s.index ∧
    (VectorStore._load_from_disk (VectorStore._save_to_disk s).1
        (VectorStore._save_to_disk s).2.1 (VectorStore._save_to_disk s).2.2).chunks
      = s.chunks ∧
    (VectorStore._load_from_disk (VectorStore._save_to_disk s).1
        (VectorStore._save_to_disk s).2.1 (VectorStore._save_to_disk s).2.2).document_metadata
      = s.document_metadata :=
  ⟨rfl, rfl, rfl, rfl⟩

/-! ### Dense id invariant machinery -/

open VectorStore

theorem embid_get (l : List Chunk)
    (hb : l.map (fun c => c.embedding_id) = List.range l.length)
    (i : Nat) (h : i < l.length) : (l.get ⟨i, h⟩).embedding_id = i := by
  have h1 : (l.map (fun c => c.embedding_id))[i]? = (List.range l.length)[i]? := by rw [hb]
  rw [List.getElem?_map, List.getElem?_range h, List.getElem?_eq_getElem h] at h1
  simpa [List.get_eq_getElem] using h1

theorem embid_of_getElem (l : List Chunk)
    (hb : l.map (fun c => c.embedding_id) = List.range l.length)
    (i : Nat) (c : Chunk) (h : l[i]? = some c) : c.embedding_id = i := by
  have hi : i < l.length := by
    by_contra hcon
    rw [List.getElem?_eq_none (le_of_not_lt hcon)] at h
    exact Option.noConfusion h
  have hg := embid_get l hb i hi
  rw [List.getElem?_eq_getElem hi] at h
  have hc : l[i] = c := Option.some.inj h
  rw [← hc]
  simpa [List.get_eq_getElem] using hg

theorem snd_mem_of_enumFrom {α : Type} :
    ∀ (l : List α) (n : Nat) (p : Nat × α), p ∈ List.enumFrom n l → p.2 ∈ l := by
  intro l
  induction l with
  | nil =>
    intro n p h
    exact absurd h (List.not_mem_nil p)
  | cons a l ih =>
    intro n p h
    simp only [List.enumFrom] at h
    rcases List.mem_cons.mp h with rfl | h
    · exact List.mem_cons_self a l
    · exact List.mem_cons_of_mem a (ih (n + 1) p h)

theorem dictLookup_erase (m : List (String × DocMeta)) (k : String) :
    dictLookup (dictErase m k) k = none := by
  unfold dictLookup dictErase
  have h : (m.filter (fun p => decide (¬ p.1 = k))).find? (fun p => decide (p.1 = k)) = none := by
    apply List.find?_eq_none.mpr
    intro x hx
    have := (List.mem_filter.mp hx).2
    simpa using this
  rw [h]
  rfl

theorem dictLookup_insert : ∀ (m : List (String × DocMeta)) (k : String) (v : DocMeta),
    dictLookup (dictInsert m k v) k = some v := by
  intro m
  induction m with
  | nil =>
    intro k v
    simp [dictInsert, dictLookup, List.find?]
  | cons p m ih =>
    intro k v
    by_cases hp : p.1 = k
    · have hany : (p :: m).any (fun q => decide (q.1 = k)) = true := by simp [hp]
      simp only [dictInsert, if_pos hany, List.map_cons, if_pos hp]
      simp [dictLookup, List.find?]
    · by_cases hany : m.any (fun q => decide (q.1 = k)) = true
      · have hany2 : (p :: m).any (fun q => decide (q.1 = k)) = true := by
          simp [List.any_cons, hany]
        simp only [dictInsert, if_pos hany2, List.map_cons, if_neg hp]
        rw [dictLookup, List.find?_cons_of_neg _ (by simpa using hp)]
        have hh := ih k v
        rw [dictInsert, if_pos hany] at hh
        exact hh
      · have hany2 : ¬ ((p :: m).any (fun q => decide (q.1 = k)) = true) := by
          intro hcon
          rcases (by simpa [List.any_cons] using hcon :
              p.1 = k ∨ m.any (fun q => decide (q.1 = k)) = true) with h | h
          · exact hp h
          · exact hany h
        simp only [dictInsert, if_neg hany2, List.cons_append]
        rw [dictLookup, List.find?_cons_of_neg _ (by simpa using hp)]
        have hh := ih k v
        rw [dictInsert, if_neg (by simpa using hany)] at hh
        exact hh

theorem filter_enumFrom_keep {α : Type} (g : Chunk → α) (d : String) :
    ∀ (l : List Chunk) (n : Nat) (D : List Nat),
      (∀ (i : Nat) (h : i < l.length), ((n + i) ∈ D ↔ (l.get ⟨i, h⟩).doc_id = d)) →
      ((List.enumFrom n (l.map g)).filter (fun p => decide (p.1 ∉ D))).map Prod.snd
        = (l.filter (fun c => decide (¬ c.doc_id = d))).map g := by
  intro l
  induction l with
  | nil => intro n D hD; rfl
  | cons c l ih =>
    intro n D hD
    have h0 : (n ∈ D) ↔ c.doc_id = d := by
      have h := hD 0 (Nat.succ_pos _)
      simpa using h
    have hrec := ih (n + 1) D (fun i h => by
      have hh := hD (i + 1) (by simpa using Nat.succ_lt_succ h)
      have harith : n + (i + 1) = n + 1 + i := by omega
      rw [harith] at hh
      simpa [List.get] using hh)
    simp only [List.map_cons, List.enumFrom, List.filter_cons]
    by_cases hc : c.doc_id = d
    · have hnD : n ∈ D := h0.mpr hc
      have e1 : (decide ((n, g c).1 ∉ D)) = false := by simp [hnD]
      have e2 : (decide (¬ c.doc_id = d)) = false := by simp [hc]
      rw [e1, e2]
      simpa using hrec
    · have hnD : n ∉ D := fun hmem => hc (h0.mp hmem)
      have e1 : (decide ((n, g c).1 ∉ D)) = true := by simpa using hnD
      have e2 : (decide (¬ c.doc_id = d)) = true := by simpa using hc
      rw [e1, e2]
      simpa using hrec

theorem filter_enum_keep {α : Type} (g : Chunk → α) (d : String) (l : List Chunk) (D : List Nat)
    (hD : ∀ (i : Nat) (h : i < l.length), (i ∈ D ↔ (l.get ⟨i, h⟩).doc_id = d)) :
    (((l.map g).enum).filter (fun p => decide (p.1 ∉ D))).map Prod.snd
      = (l.filter (fun c => decide (¬ c.doc_id = d))).map g := by
  have h := filter_enumFrom_keep g d l 0 D (fun i hi => by simpa using hD i hi)
  simpa [List.enum] using h

theorem mem_delIds_iff (l : List Chunk) (d : String)
    (hb : l.map (fun c => c.embedding_id) = List.range l.length)
    (i : Nat) (h : i < l.length) :
    (i ∈ (l.filter (fun c => decide (c.doc_id = d))).map (fun c => c.embedding_id))
      ↔ (l.get ⟨i, h⟩).doc_id = d := by
  constructor
  · intro hi
    rcases List.mem_map.mp hi with ⟨c, hc, hci⟩
    rcases List.mem_filter.mp hc with ⟨hcl, hcd⟩
    rcases List.mem_iff_get.mp hcl with ⟨j, rfl⟩
    have hg := embid_get l hb j.1 j.2
    have hji : j.1 = i := by
      rw [← hci]
      exact hg.symm
    have hgg : l.get ⟨i, h⟩ = l.get j := by
      congr 1
      exact Fin.ext hji.symm
    rw [hgg]
    simpa using hcd
  · intro hd
    apply List.mem_map.mpr
    refine ⟨l.get ⟨i, h⟩, ?_, embid_get l hb i h⟩
    exact List.mem_filter.mpr ⟨List.get_mem l i h, by simpa using hd⟩

theorem mem_delIds_lt (l : List Chunk) (d : String)
    (hb : l.map (fun c => c.embedding_id) = List.range l.length) :
    ∀ i ∈ (l.filter (fun c => decide (c.doc_id = d))).map (fun c => c.embedding_id),
      i < l.length := by
  intro i hi
  rcases List.mem_map.mp hi with ⟨c, hc, hci⟩
  rcases List.mem_iff_get.mp (List.mem_filter.mp hc).1 with ⟨j, rfl⟩
  rw [← hci, embid_get l hb j.1 j.2]
  exact j.2

theorem mkChunks_map_text {α : Type} (f : Str → α) (d dn : String) (pc ol nt : Nat)
    (ps : List Str) :
    (mkChunks d dn pc ol nt ps).map (fun c => f c.text) = ps.map f := by
  unfold mkChunks
  rw [List.map_map]
  have h : ((fun c => f c.text) ∘ (fun p : Nat × Str =>
      ({ doc_id := d, doc_name := dn, text := p.2, page := p.1 % pc + 1,
         chunk_id := ol + p.1, embedding_id := nt - ps.length + p.1 } : Chunk)))
      = (f ∘ Prod.snd) := rfl
  rw [h, ← List.map_map, List.enum_map_snd]

theorem mkChunks_map_embid (d dn : String) (pc ol nt : Nat) (ps : List Str) :
    (mkChunks d dn pc ol nt ps).map (fun c => c.embedding_id)
      = (List.range ps.length).map (fun i => nt - ps.length + i) := by
  unfold mkChunks
  rw [List.map_map]
  have h : ((fun c => c.embedding_id) ∘ (fun p : Nat × Str =>
      ({ doc_id := d, doc_name := dn, text := p.2, page := p.1 % pc + 1,
         chunk_id := ol + p.1, embedding_id := nt - ps.length + p.1 } : Chunk)))
      = ((fun i => nt - ps.length + i) ∘ Prod.fst) := rfl
  rw [h, ← List.map_map, List.enum_map_fst]

theorem mkChunks_length (d dn : String) (pc ol nt : Nat) (ps : List Str) :
    (mkChunks d dn pc ol nt ps).length = ps.length := by
  unfold mkChunks
  rw [List.length_map, List.enum_length]

theorem mkChunks_doc (d dn : String) (pc ol nt : Nat) (ps : List Str) :
    ∀ c ∈ mkChunks d dn pc ol nt ps, c.doc_id = d := by
  intro c hc
  unfold mkChunks at hc
  rcases List.mem_map.mp hc with ⟨p, hp, rfl⟩
  rfl

theorem inv_add {R : Type} [LinearOrderedCommRing R] (encode : Str → List R)
    (s : VectorStore R) (hs : Inv encode s) (text : Str) (doc_id doc_name : String)
    (page_count now : Nat) (hpc : 0 < page_count) :
    Inv encode (add_document encode s text doc_id doc_name page_count now).1 := by
  unfold add_document
  by_cases hemp : (_split_text text 20).isEmpty
  · rw [if_pos hemp]
    exact hs
  · rw [if_neg hemp, if_neg (Nat.pos_iff_ne_zero.mp hpc)]
    obtain ⟨h1, h2⟩ := hs
    have hlen : s.index.length = s.chunks.length := by rw [h1, List.length_map]
    have hNT : (s.index ++ (_split_text text 20).map encode).length
        = s.chunks.length + (_split_text text 20).length := by
      rw [List.length_append, List.length_map, hlen]
    constructor
    · dsimp only
      rw [List.map_append, mkChunks_map_text, h1]
    · dsimp only
      rw [hNT, List.map_append, h2, mkChunks_map_embid, List.length_append, mkChunks_length]
      have harith : s.chunks.length + (_split_text text 20).length
          - (_split_text text 20).length = s.chunks.length := by omega
      simp only [harith]
      rw [List.range_add]

theorem inv_delete {R : Type} [LinearOrderedCommRing R] (encode : Str → List R)
    (s : VectorStore R) (hs : Inv encode s) (d : String) :
    Inv encode (delete_document s d).1 := by
  unfold delete_document
  by_cases h1 : dictLookup s.document_metadata d = none
  · rw [if_pos h1]
    exact hs
  rw [if_neg h1]
  by_cases h2 : ((s.chunks.enum.filter (fun p => decide (p.2.doc_id = d))).map Prod.fst).isEmpty = true
  · rw [if_pos h2]
    exact hs
  rw [if_neg h2]
  by_cases h3 : (delIdsOf s d).any (fun i => decide (s.index.length ≤ i)) = true
  · rw [if_pos h3]
    exact hs
  rw [if_neg h3]
  obtain ⟨hA, hB⟩ := hs
  constructor
  · show compactIndex s d = (keptChunks s d).map (fun c => encode c.text)
    unfold compactIndex keptChunks reconstruct_all delIdsOf
    rw [List.map_map]
    have hc1 : ((fun c => encode c.text) ∘ fun p : Nat × Chunk =>
        { p.2 with embedding_id := p.1 }) = ((fun c => encode c.text) ∘ Prod.snd) := rfl
    rw [hc1, ← List.map_map, List.enum_map_snd, hA]
    exact filter_enum_keep (fun c => encode c.text) d s.chunks _
      (fun i hi => mem_delIds_iff s.chunks d hB i hi)
  · show (keptChunks s d).map (fun c => c.embedding_id) = List.range (keptChunks s d).length
    unfold keptChunks
    rw [List.map_map, List.length_map, List.enum_length]
    have hc1 : ((fun c => c.embedding_id) ∘ fun p : Nat × Chunk =>
        { p.2 with embedding_id := p.1 }) = Prod.fst := rfl
    rw [hc1, List.enum_map_fst]

theorem reachable_inv {R : Type} [LinearOrderedCommRing R] (encode : Str → List R)
    (s : VectorStore R) (h : Reachable encode s) : Inv encode s := by
  induction h with
  | empty => exact ⟨rfl, rfl⟩
  | ingest s text doc_id doc_name page_count now hr hpc ih =>
    exact inv_add encode s ih text doc_id doc_name page_count now hpc
  | delete s doc_id hr ih => exact inv_delete encode s ih doc_id

/-- Claim C1 (amended): for every sequence of ingest and delete operations
from the empty store in which every ingest passes a positive page count, as
the only caller in this repository always does, the embedding ids of the
chunk records in order are exactly 0, 1, 2, up to the index size, which
gives the set equality with no gaps and no duplicates and the positional
law, and reconstructing the index at the embedding id of any chunk yields
the vector produced for its text when it was ingested. -/
theorem dense_id_invariant {R : Type} [LinearOrderedCommRing R] (encode : Str → List R)
    (s : VectorStore R) (h : Reachable encode s) :
    s.chunks.map (fun c => c.embedding_id) = List.range s.index.length ∧
    ∀ c ∈ s.chunks, (reconstruct_all s)[c.embedding_id]? = some (encode c.text) := by
  obtain ⟨hA, hB⟩ := reachable_inv encode s h
  have hlen : s.index.length = s.chunks.length := by rw [hA, List.length_map]
  refine ⟨by rw [hlen]; exact hB, ?_⟩
  intro c hc
  rcases List.mem_iff_get.mp hc with ⟨j, rfl⟩
  have hembid := embid_get s.chunks hB j.1 j.2
  rw [hembid]
  unfold reconstruct_all
  rw [hA, List.getElem?_map, List.getElem?_eq_getElem j.2]
  simp [List.get_eq_getElem]

set_option maxRecDepth 100000 in
/-- Counterexample to C1 as stated: the single-operation sequence that
ingests one twenty-character line with page_count zero leaves the index
with one vector and the chunk list empty, because the modulo-by-zero
failure strikes after the vectors were added, so the embedding ids are not
the range of the index size. -/
theorem dense_id_counterexample :
    ¬ ((VectorStore.add_document encC (VectorStore.emptyStore)
          "aaaaaaaaaaaaaaaaaaaa".data "A" "A" 0 0).1.chunks.map (fun c => c.embedding_id)
        = List.range (VectorStore.add_document encC (VectorStore.emptyStore)
          "aaaaaaaaaaaaaaaaaaaa".data "A" "A" 0 0).1.index.length) := by
  decide

set_option maxRecDepth 100000 in
/-- Witness for the amended C1 at the concrete store reached by one ingest
with page count one. -/
theorem dense_id_invariant_witness :
    ((VectorStore.add_document encC (VectorStore.emptyStore) textA "A" "A" 1 0).1.chunks.map
        (fun c => c.embedding_id)
      = List.range
          (VectorStore.add_document encC (VectorStore.emptyStore) textA "A" "A" 1 0).1.index.length) ∧
    ∀ c ∈ (VectorStore.add_document encC (VectorStore.emptyStore) textA "A" "A" 1 0).1.chunks,
      (VectorStore.reconstruct_all
          (VectorStore.add_document encC (VectorStore.emptyStore) textA "A" "A" 1 0).1)[c.embedding_id]?
        = some (encC c.text) :=
  dense_id_invariant encC _
    (VectorStore.Reachable.ingest _ textA "A" "A" 1 0 VectorStore.Reachable.empty (by decide))

/-! ### Delete completeness and no-effect policy -/

theorem mem_of_getElemOpt {α : Type} {l : List α} {i : Nat} {a : α}
    (h : l[i]? = some a) : a ∈ l := by
  have hi : i < l.length := by
    by_contra hcon
    rw [List.getElem?_eq_none (le_of_not_lt hcon)] at h
    exact Option.noConfusion h
  rw [List.getElem?_eq_getElem hi] at h
  rw [← Option.some.inj h]
  exact List.getElem_mem hi

theorem keptChunks_doc {R : Type} [LinearOrderedCommRing R] (s : VectorStore R) (d : String) :
    ∀ c ∈ keptChunks s d, ¬ c.doc_id = d := by
  intro c hc
  unfold keptChunks at hc
  rcases List.mem_map.mp hc with ⟨p, hp, rfl⟩
  have h2 := snd_mem_of_enumFrom _ 0 p (by simpa [List.enum] using hp)
  have h3 := (List.mem_filter.mp h2).2
  simpa using h3

/-- Claim C2: after a delete that returns true, the document owns no chunk
records, its registry entry is gone, and every search filtered to that
document returns the empty sequence for every query and every top_k. -/
theorem delete_completeness {R : Type} [LinearOrderedCommRing R] (s : VectorStore R)
    (d : String) (h : (delete_document s d).2 = true) :
    get_document_chunks (delete_document s d).1 d = [] ∧
    dictLookup (delete_document s d).1.document_metadata d = none ∧
    ∀ (encode : Str → List R) (q : Str) (k : Nat),
      search encode (delete_document s d).1 q k [d] = [] := by
  unfold delete_document at h ⊢
  by_cases h1 : dictLookup s.document_metadata d = none
  · rw [if_pos h1] at h
    exact absurd h (by simp)
  rw [if_neg h1] at h ⊢
  by_cases h2 : ((s.chunks.enum.filter (fun p => decide (p.2.doc_id = d))).map Prod.fst).isEmpty = true
  · rw [if_pos h2] at h
    exact absurd h (by simp)
  rw [if_neg h2] at h ⊢
  by_cases h3 : (delIdsOf s d).any (fun i => decide (s.index.length ≤ i)) = true
  · rw [if_pos h3] at h
    exact absurd h (by simp)
  rw [if_neg h3] at h ⊢
  refine ⟨?_, ?_, ?_⟩
  · dsimp only
    unfold get_document_chunks
    apply List.filter_eq_nil_iff.mpr
    intro c hc
    simpa using keptChunks_doc s d c hc
  · dsimp only
    exact dictLookup_erase s.document_metadata d
  · intro encode q k
    dsimp only
    unfold search
    by_cases hz : (compactIndex s d).length = 0
    · rw [if_pos hz]
    · rw [if_neg hz]
      apply List.filterMap_eq_nil_iff.mpr
      intro p hp
      cases hchunk : (keptChunks s d)[p.1]? with
      | none => simp [hchunk]
      | some chunk =>
        have hdoc := keptChunks_doc s d chunk (mem_of_getElemOpt hchunk)
        simp only [hchunk]
        rw [if_pos ⟨by simp, by simpa using hdoc⟩]

set_option maxRecDepth 100000 in
/-- Witness for C2: deleting document A from the concrete two-document
store empties its chunks, registry entry, and filtered searches. -/
theorem delete_completeness_witness :
    ((VectorStore.delete_document s10 "A").2 = true) ∧
    (VectorStore.get_document_chunks (VectorStore.delete_document s10 "A").1 "A" = [] ∧
      dictLookup (VectorStore.delete_document s10 "A").1.document_metadata "A" = none ∧
      ∀ (encode : Str → List ℤ) (q : Str) (k : Nat),
        VectorStore.search encode (VectorStore.delete_document s10 "A").1 q k ["A"] = []) :=
  ⟨by decide, delete_completeness s10 "A" (by decide)⟩

/-- Claim C4: the three recoverable conditions return a no-effect result
with the store unchanged and no failure: an ingest whose chunking is empty
returns false, a search over zero vectors returns the empty sequence, and a
delete of an unregistered document or one owning no chunks returns false. -/
theorem no_effect {R : Type} [LinearOrderedCommRing R] (encode : Str → List R)
    (s : VectorStore R) (text q : Str) (d doc_name : String)
    (page_count now top_k : Nat) (filt : List String) :
    (VectorStore._split_text text 20 = [] →
      add_document encode s text d doc_name page_count now = (s, false)) ∧
    (s.index.length = 0 → search encode s q top_k filt = []) ∧
    ((dictLookup s.document_metadata d = none ∨ ∀ c ∈ s.chunks, ¬ c.doc_id = d) →
      delete_document s d = (s, false)) := by
  refine ⟨?_, ?_, ?_⟩
  · intro hsp
    unfold add_document
    rw [if_pos (by simp [hsp])]
  · intro hz
    unfold search
    rw [if_pos hz]
  · intro hd
    unfold delete_document
    rcases hd with hd | hd
    · rw [if_pos hd]
    · by_cases h1 : dictLookup s.document_metadata d = none
      · rw [if_pos h1]
      · rw [if_neg h1]
        have hfil : s.chunks.enum.filter (fun p => decide (p.2.doc_id = d)) = [] := by
          apply List.filter_eq_nil_iff.mpr
          intro p hp
          have := hd p.2 (snd_mem_of_enumFrom _ 0 p (by simpa [List.enum] using hp))
          simpa using this
        rw [if_pos (by rw [hfil]; rfl)]

/-- Witness for C4 at the empty store with an empty text. -/
theorem no_effect_witness :
    VectorStore.add_document encC (VectorStore.emptyStore) [] "A" "A" 1 0
      = ((VectorStore.emptyStore : VectorStore ℤ), false) ∧
    VectorStore.search encC (VectorStore.emptyStore : VectorStore ℤ) q10 5 [] = [] ∧
    VectorStore.delete_document (VectorStore.emptyStore : VectorStore ℤ) "A"
      = (VectorStore.emptyStore, false) :=
  ⟨(no_effect encC VectorStore.emptyStore [] q10 "A" "A" 1 0 5 []).1 (by decide),
    (no_effect encC VectorStore.emptyStore [] q10 "A" "A" 1 0 5 []).2.1 (by decide),
    (no_effect encC VectorStore.emptyStore [] q10 "A" "A" 1 0 5 []).2.2 (Or.inl (by decide))⟩

/-- Claim C9: re-ingesting a document id that already owns chunks keeps all
its earlier chunk records and appends the new ones, while its registry
entry is replaced wholesale so the chunk count reflects only the latest
ingest. -/
theorem reingest_duplicates {R : Type} [LinearOrderedCommRing R] (encode : Str → List R)
    (s : VectorStore R) (text : Str) (d doc_name : String) (page_count now : Nat)
    (hpc : 0 < page_count) (hsp : VectorStore._split_text text 20 ≠ [])
    (_hprev : get_document_chunks s d ≠ []) :
    (add_document encode s text d doc_name page_count now).2 = true ∧
    get_document_chunks (add_document encode s text d doc_name page_count now).1 d
      = get_document_chunks s d
        ++ mkChunks d doc_name page_count s.chunks.length
            (s.index ++ (VectorStore._split_text text 20).map encode).length
            (VectorStore._split_text text 20) ∧
    dictLookup (add_document encode s text d doc_name page_count now).1.document_metadata d
      = some ⟨doc_name, now, page_count, (VectorStore._split_text text 20).length⟩ := by
  have hemp : ¬ ((_split_text text 20).isEmpty = true) := by
    simpa [List.isEmpty_iff] using hsp
  unfold add_document
  rw [if_neg hemp, if_neg (Nat.pos_iff_ne_zero.mp hpc)]
  refine ⟨rfl, ?_, ?_⟩
  · dsimp only
    unfold get_document_chunks
    rw [List.filter_append]
    congr 1
    apply List.filter_eq_self.mpr
    intro c hc
    simpa using mkChunks_doc d doc_name page_count s.chunks.length _ _ c hc
  · dsimp only
    exact dictLookup_insert s.document_metadata d
      ⟨doc_name, now, page_count, (_split_text text 20).length⟩

set_option maxRecDepth 100000 in
/-- Witness for C9: re-ingesting document A into the concrete store doubles
its chunk records while the registry keeps only the latest count. -/
theorem reingest_duplicates_witness :
    (0 < 1 ∧ VectorStore._split_text textA 20 ≠ [] ∧
      VectorStore.get_document_chunks s10 "A" ≠ []) ∧
    ((VectorStore.add_document encC s10 textA "A" "A2" 1 7).2 = true ∧
      VectorStore.get_document_chunks (VectorStore.add_document encC s10 textA "A" "A2" 1 7).1 "A"
        = VectorStore.get_document_chunks s10 "A"
          ++ VectorStore.mkChunks "A" "A2" 1 s10.chunks.length
              (s10.index ++ (VectorStore._split_text textA 20).map encC).length
              (VectorStore._split_text textA 20) ∧
      dictLookup (VectorStore.add_document encC s10 textA "A" "A2" 1 7).1.document_metadata "A"
        = some ⟨"A2", 7, 1, (VectorStore._split_text textA 20).length⟩) :=
  ⟨⟨by decide, by decide, by decide⟩,
    reingest_duplicates encC s10 textA "A" "A2" 1 7 (by decide) (by decide) (by decide)⟩

/-! ### Search ordering and filtering -/

theorem pairwise_filterMap_of {α β : Type} {Rr : α → α → Prop} {S : β → β → Prop}
    (f : α → Option β)
    (h : ∀ a b, Rr a b → ∀ x, f a = some x → ∀ y, f b = some y → S x y) :
    ∀ {l : List α}, List.Pairwise Rr l → List.Pairwise S (l.filterMap f) := by
  intro l hl
  induction l with
  | nil => simp
  | cons a l2 ih =>
    rw [List.pairwise_cons] at hl
    obtain ⟨ha, hl2⟩ := hl
    cases hfa : f a with
    | none =>
      rw [List.filterMap_cons_none hfa]
      exact ih hl2
    | some x =>
      rw [List.filterMap_cons_some hfa]
      refine List.Pairwise.cons ?_ (ih hl2)
      intro y hy
      rcases List.mem_filterMap.mp hy with ⟨b, hb, hfb⟩
      exact h a b (ha b hb) x hfa y hfb

/-- Claim C3: on a store satisfying the dense id invariant, which holds for
every reachable store, search returns its result rows sorted in ascending
distance, and rows of equal distance are ordered by lower embedding id,
the earlier insertion first. -/
theorem search_ordered {R : Type} [LinearOrderedCommRing R] (encode : Str → List R)
    (s : VectorStore R) (hinv : Inv encode s) (hne : 0 < s.index.length)
    (q : Str) (k : Nat) (filt : List String) :
    List.Pairwise (fun a b : SearchResult R =>
        a.distance < b.distance ∨
          (a.distance = b.distance ∧ a.chunk.embedding_id < b.chunk.embedding_id))
      (search encode s q k filt) := by
  unfold search
  rw [if_neg (by omega : ¬ s.index.length = 0)]
  unfold knn
  set l0 := s.index.enum.map (fun p => (p.1, sqdist (encode q) p.2)) with hl0
  have hfst : l0.map Prod.fst = List.range s.index.length := by
    rw [hl0, List.map_map]
    have he : (Prod.fst ∘ fun p : Nat × List R => (p.1, sqdist (encode q) p.2)) = Prod.fst := rfl
    rw [he, List.enum_map_fst]
  have hnd0 : (l0.map Prod.fst).Nodup := by
    rw [hfst]
    exact List.nodup_range _
  have hperm : List.Perm (List.insertionSort rankLe l0) l0 := List.perm_insertionSort _ _
  have hnd : ((List.insertionSort rankLe l0).map Prod.fst).Nodup :=
    ((hperm.map Prod.fst).nodup_iff).mpr hnd0
  have hsorted : List.Pairwise rankLe (List.insertionSort rankLe l0) :=
    List.sorted_insertionSort rankLe l0
  have hpne : List.Pairwise (fun a b : Nat × R => a.1 ≠ b.1) (List.insertionSort rankLe l0) :=
    List.pairwise_map.mp hnd
  have hcomb := (hsorted.and hpne).sublist (List.take_sublist k _)
  refine pairwise_filterMap_of _ ?_ hcomb
  intro a b hab x hx y hy
  obtain ⟨hrab, hneq⟩ := hab
  have hfact : ∀ (p : Nat × R) (z : SearchResult R),
      (match s.chunks[p.1]? with
        | none => none
        | some chunk =>
          if filt ≠ [] ∧ chunk.doc_id ∉ filt then none
          else some ⟨chunk, 1 - p.2, p.2⟩) = some z →
      z.distance = p.2 ∧ z.chunk.embedding_id = p.1 := by
    intro p z hpz
    cases hc : s.chunks[p.1]? with
    | none =>
      simp only [hc] at hpz
      exact Option.noConfusion hpz
    | some chunk =>
      simp only [hc] at hpz
      by_cases hfilt : filt ≠ [] ∧ chunk.doc_id ∉ filt
      · rw [if_pos hfilt] at hpz
        exact Option.noConfusion hpz
      · rw [if_neg hfilt] at hpz
        obtain rfl := Option.some.inj hpz
        exact ⟨rfl, embid_of_getElem s.chunks hinv.2 p.1 chunk hc⟩
  obtain ⟨hx1, hx2⟩ := hfact a x hx
  obtain ⟨hy1, hy2⟩ := hfact b y hy
  rcases hrab with hlt | ⟨heq, hle⟩
  · left
    rw [hx1, hy1]
    exact hlt
  · right
    refine ⟨by rw [hx1, hy1, heq], ?_⟩
    rw [hx2, hy2]
    exact lt_of_le_of_ne hle hneq

set_option maxRecDepth 100000 in
/-- Witness for C3 at the concrete store with four vectors, including the
tie between the two most distant chunks. -/
theorem search_ordered_witness :
    (VectorStore.Inv encC s10 ∧ 0 < s10.index.length) ∧
    List.Pairwise (fun a b : SearchResult ℤ =>
        a.distance < b.distance ∨
          (a.distance = b.distance ∧ a.chunk.embedding_id < b.chunk.embedding_id))
      (VectorStore.search encC s10 q10 9 []) :=
  ⟨⟨by decide, by decide⟩, search_ordered encC s10 (by decide) (by decide) q10 9 []⟩

set_option maxRecDepth 100000 in
/-- Claim C10: search applies a non-empty doc_filter only after the global
top_k selection: every returned row lies in the filter, and at the concrete
store the filtered call returns fewer than top_k rows even though the
filtered document owns top_k chunks. -/
theorem doc_filter_after_retrieval :
    (∀ (R : Type) [LinearOrderedCommRing R] (encode : Str → List R)
        (s : VectorStore R) (q : Str) (k : Nat) (filt : List String), filt ≠ [] →
        ∀ r ∈ VectorStore.search encode s q k filt, r.chunk.doc_id ∈ filt) ∧
    ((VectorStore.search encC s10 q10 2 ["A"]).length < 2 ∧
      2 ≤ (VectorStore.get_document_chunks s10 "A").length) := by
  constructor
  · intro R _instR encode s q k filt hfilt r hr
    unfold VectorStore.search at hr
    by_cases hz : s.index.length = 0
    · rw [if_pos hz] at hr
      exact absurd hr (List.not_mem_nil r)
    · rw [if_neg hz] at hr
      rcases List.mem_filterMap.mp hr with ⟨p, hp, hfp⟩
      cases hc : s.chunks[p.1]? with
      | none =>
        simp only [hc] at hfp
        exact Option.noConfusion hfp
      | some chunk =>
        simp only [hc] at hfp
        by_cases hcond : filt ≠ [] ∧ chunk.doc_id ∉ filt
        · rw [if_pos hcond] at hfp
          exact Option.noConfusion hfp
        · rw [if_neg hcond] at hfp
          obtain rfl := Option.some.inj hfp
          push_neg at hcond
          exact hcond hfilt
  · exact ⟨by decide, by decide⟩

set_option maxRecDepth 100000 in
/-- Witness for the universally quantified part of C10 at a concrete
filtered search that does return rows. -/
theorem doc_filter_after_retrieval_witness :
    (["B"] ≠ ([] : List String)) ∧
    ∀ r ∈ VectorStore.search encC s10 q10 2 ["B"], r.chunk.doc_id ∈ ["B"] :=
  ⟨by decide, fun r hr =>
    doc_filter_after_retrieval.1 ℤ encC s10 q10 2 ["B"] (by decide) r hr⟩
